import Mathlib

/-!
Verification development for the gptask repository (Go).

The program is shallowly embedded: each Go function that the claims touch is
translated into an executable Lean definition over lists of characters
(Go strings are byte strings; the repository only manipulates ASCII tags,
so a `List Char` model is faithful). Go `strings.Split`, `strings.Join`,
`strings.Trim`, `strings.SplitN`, `strings.Index`, `strings.HasPrefix` and
`strconv.Atoi` are modelled by the primitives below, matching the
documented semantics of the Go standard library.
-/

namespace Gptask

/-- Go strings.HasPrefix: is `pat` a prefix of `s`. -/
def isPrefixL : List Char → List Char → Bool
  | [], _ => true
  | _ :: _, [] => false
  | p :: ps, c :: cs => p == c && isPrefixL ps cs

/-- Go strings.Split with a one-character separator: splits `s` at every
occurrence of `sep`; always returns at least one chunk. -/
def splitOnCh (sep : Char) : List Char → List (List Char)
  | [] => [[]]
  | c :: rest =>
    if c = sep then [] :: splitOnCh sep rest
    else
      match splitOnCh sep rest with
      | [] => [[c]]
      | h :: t => (c :: h) :: t

/-- Go strings.Join with a one-character separator. -/
def joinCh (sep : Char) : List (List Char) → List Char
  | [] => []
  | [l] => l
  | l :: rest => l ++ sep :: joinCh sep rest

/-- Left part of Go strings.Trim: drop leading characters in `cut`. -/
def trimLeftChars (cut : List Char) : List Char → List Char
  | [] => []
  | c :: rest => if c ∈ cut then trimLeftChars cut rest else c :: rest

/-- Go strings.Trim: drop leading and trailing characters in `cut`. -/
def trimChars (cut : List Char) (s : List Char) : List Char :=
  (trimLeftChars cut (trimLeftChars cut s).reverse).reverse

/-- Go strings.SplitN(s, sep, 2) for a one-character separator: split at the
first occurrence only. -/
def splitN2 (sep : Char) : List Char → List (List Char)
  | [] => [[]]
  | c :: rest =>
    if c = sep then [[], rest]
    else
      match splitN2 sep rest with
      | [] => [[c]]
      | h :: t => (c :: h) :: t

/-- Does `pat` occur as a contiguous substring of `s` starting at offset 0..;
Go strings.Index returning the first offset, `none` for Go value -1. -/
def indexOfSub (s pat : List Char) : Option Nat :=
  match s with
  | [] => if pat = [] then some 0 else none
  | _ :: rest =>
    if isPrefixL pat s then some 0
    else (indexOfSub rest pat).map (· + 1)

/-- Digit-string value: `some n` when the list is nonempty and all ASCII
digits, as decimal. -/
def digitsToNat : List Char → Option Nat
  | [] => none
  | cs => cs.foldlM (fun acc c =>
      if c.isDigit then some (acc * 10 + (c.toNat - 48)) else none) 0

/-- Go strconv.Atoi with the error ignored (the shell engine writes
`rc, _ := strconv.Atoi(...)`): the parsed integer, or 0 when the string is
not a valid signed decimal integer, exactly the zero value Go returns
alongside the error. -/
def goAtoi (s : List Char) : Int :=
  match s with
  | '-' :: rest => ((digitsToNat rest).map (fun n => -(n : Int))).getD 0
  | '+' :: rest => ((digitsToNat rest).map (fun n => (n : Int))).getD 0
  | _ => ((digitsToNat s).map (fun n => (n : Int))).getD 0

/-! ## Step codec (src/step.go and the package-main variant in the shell
snapshot, src/unnamed/part_004 lines 9-101)

Both snapshots carry the same decode and encode bodies; they differ only in
the fourth struct field (`Feedback` vs `Observation`) and in whether
decodeStep runs Validate before returning. The shared loop is embedded once
and wrapped per variant. -/

/-- Marker line prefixes used by decodeStep, and the Trim cutset. -/
def thoughtTag : List Char := ("thought:".toList)

/-- Prefix of the action marker line. -/
def actionTag : List Char := ("action:".toList)

/-- Prefix of the input marker line. -/
def inputTag : List Char := ("input:".toList)

/-- The fenced-block marker prefix (three backticks). -/
def fenceTag : List Char := ("\x60\x60\x60".toList)

/-- Cutset of strings.Trim in decodeStep: a newline and a space. -/
def nlSpace : List Char := ['\n', ' ']

/-- Step of src/step.go: Thought, Action, Input, Feedback. -/
structure GoStep where
  thought : List Char
  action : List Char
  input : List Char
  feedback : List Char
deriving DecidableEq, Repr

/-- Step of src/unnamed/part_004: Thought, Action, Input, Observation
(field named obsv here). -/
structure StepV2 where
  thought : List Char
  action : List Char
  input : List Char
  obsv : List Char
deriving DecidableEq, Repr

/-- Decoded thought/action/input triple shared by both decodeStep variants. -/
structure ProposalFields where
  thought : List Char
  action : List Char
  input : List Char
deriving DecidableEq, Repr

/-- Inner loop of decodeStep after an `input:` marker line (src/step.go
lines 58-73): walk the following lines; the first line with the fence
prefix opens the block, lines seen while the block is open are collected,
and a second fence-prefixed line stops the walk. Returns the block flag,
the collected input lines, and the lines remaining after the closing fence
line (the Go outer loop increments past that line before continuing). -/
def decodeInputBlock : List (List Char) → Bool → List (List Char) →
    Bool × List (List Char) × List (List Char)
  | [], block, acc => (block, acc, [])
  | l :: rest, block, acc =>
    if isPrefixL fenceTag l then
      if block then (block, acc, rest)
      else decodeInputBlock rest true acc
    else if block then decodeInputBlock rest block (acc ++ [l])
    else decodeInputBlock rest block acc

/-- Outer scan of decodeStep (src/step.go lines 49-78): one pass over the
message lines; the first colon splits a `thought:` or `action:` marker line
and the text after it is trimmed of newlines and spaces (Go indexes
SplitN(...)[1], which exists because the matched prefix contains the colon;
getD 1 models that access). An `input:` line hands control to
decodeInputBlock, whose flag, accumulator and remaining lines persist, and
the joined accumulator is assigned to the input field. The extra fuel
argument only bounds the recursion: every iteration consumes at least one
line of the list, so with fuel exceeding the line count (as the wrapper
passes) the zero-fuel branch is unreachable and the function computes
exactly the Go loop. -/
def decodeLoop : Nat → List (List Char) → Bool → List (List Char) →
    ProposalFields → ProposalFields
  | 0, _, _, _, s => s
  | _ + 1, [], _, _, s => s
  | fuel + 1, l :: rest, block, acc, s =>
    if isPrefixL thoughtTag l then
      decodeLoop fuel rest block acc
        { s with thought := trimChars nlSpace ((splitN2 ':' l).getD 1 []) }
    else if isPrefixL actionTag l then
      decodeLoop fuel rest block acc
        { s with action := trimChars nlSpace ((splitN2 ':' l).getD 1 []) }
    else if isPrefixL inputTag l then
      let r := decodeInputBlock rest block acc
      decodeLoop fuel r.2.2 r.1 r.2.1 { s with input := joinCh '\n' r.2.1 }
    else decodeLoop fuel rest block acc s

/-- The thought/action/input triple both decodeStep variants compute:
split the message on newlines and run the scan from an all-empty Step. -/
def decodeTriple (msg : List Char) : ProposalFields :=
  let lines := splitOnCh '\n' msg
  decodeLoop (lines.length + 1) lines false [] ⟨[], [], []⟩

/-- decodeStep of src/step.go (lines 38-81): the scan result as a Step;
that variant always returns the Step with a nil error. -/
def decodeStepGo (msg : List Char) : GoStep :=
  ⟨(decodeTriple msg).thought, (decodeTriple msg).action,
    (decodeTriple msg).input, []⟩

/-- Validate of src/step.go (lines 16-36): nil for action done; otherwise
an error for an empty thought, an empty input, or an action outside the
switch cases file, cd, python, shell, search. -/
def validateGo (s : GoStep) : Option String :=
  if s.action = ("done".toList) then none
  else if s.thought = [] then some "thought must be specified"
  else if s.input = [] then some "input must be specified"
  else if s.action ∈ [("file".toList), ("cd".toList), ("python".toList),
      ("shell".toList), ("search".toList)] then none
  else some "invalid action value"

/-- Validate of the shell-engine snapshot (src/unnamed/part_004 lines
16-36): same shape, but the switch lists file, python, shell, search only
(no cd action in that snapshot). -/
def validateV2 (s : StepV2) : Option String :=
  if s.action = ("done".toList) then none
  else if s.thought = [] then some "thought must be specified"
  else if s.input = [] then some "input must be specified"
  else if s.action ∈ [("file".toList), ("python".toList),
      ("shell".toList), ("search".toList)] then none
  else some "invalid action value"

/-- decodeStep of src/unnamed/part_004 (lines 38-86): same scan, then
Validate; a validation error makes decodeStep return nil with the error,
modelled as none. -/
def decodeStepV2 (msg : List Char) : Option StepV2 :=
  match validateV2 ⟨(decodeTriple msg).thought, (decodeTriple msg).action,
      (decodeTriple msg).input, []⟩ with
  | some _ => none
  | none => some ⟨(decodeTriple msg).thought, (decodeTriple msg).action,
      (decodeTriple msg).input, []⟩

/-- encodeStep of src/step.go (lines 83-96): a Step with a nonempty thought
renders the three marker lines with the input payload trimmed of outer
newlines and wrapped in fences; otherwise a nonempty feedback renders the
feedback block; otherwise the empty join. -/
def encodeStepGo (s : GoStep) : List Char :=
  if s.thought ≠ [] then
    joinCh '\n'
      [thoughtTag ++ ' ' :: s.thought,
       actionTag ++ ' ' :: s.action,
       inputTag ++ '\n' :: fenceTag ++ '\n' ::
         trimChars ['\n'] s.input ++ '\n' :: fenceTag ++ ['\n']]
  else if s.feedback ≠ [] then
    joinCh '\n'
      [("feedback:".toList) ++ '\n' :: fenceTag ++ '\n' ::
         trimChars ['\n'] s.feedback ++ '\n' :: fenceTag ++ ['\n']]
  else joinCh '\n' []

/-- encodeStep of src/unnamed/part_004 (lines 88-101): identical to the
src/step.go encoder except that the second branch renders the observation
block. -/
def encodeStepV2 (s : StepV2) : List Char :=
  if s.thought ≠ [] then
    joinCh '\n'
      [thoughtTag ++ ' ' :: s.thought,
       actionTag ++ ' ' :: s.action,
       inputTag ++ '\n' :: fenceTag ++ '\n' ::
         trimChars ['\n'] s.input ++ '\n' :: fenceTag ++ ['\n']]
  else if s.obsv ≠ [] then
    joinCh '\n'
      [("observation:".toList) ++ '\n' :: fenceTag ++ '\n' ::
         trimChars ['\n'] s.obsv ++ '\n' :: fenceTag ++ ['\n']]
  else joinCh '\n' []

/-! ## Shell engine (src/unnamed/part_004, package shell, lines 102-226)

Shell.Run writes the command plus the trailer
`echo "GPTASK-COMMAND-END,$?,$PWD"` to the persistent bash process, then
multiplexes over the stdout and stderr line channels until a stdout line
contains the sentinel. The interleaved lines the two goroutine scanners
deliver are modelled as one ordered event list; Run consumes a prefix of
it. A write error to stdin (the only pre-loop error return) is outside the
event model and noted where relevant. -/

/-- The sentinel constant magicDelimiter of shell.go. -/
def magicDelimiter : List Char := ("GPTASK-COMMAND-END".toList)

/-- One line delivered by a stream-drain goroutine of the shell. -/
inductive ShellEvent where
  | out (line : List Char)
  | errOut (line : List Char)
deriving DecidableEq, Repr

/-- Result of Shell.Run on an event list: `ok` carries the exit code, the
joined stdout and stderr accumulators, the new workDir field, and the
events Run did not consume (the always-nil Go error is implicit in `ok`);
`panicked` marks the out-of-range access Go would hit when a
sentinel-bearing line has fewer than two comma fields after the token;
`blocked` marks an event list exhausted before any sentinel, where the Go
select would wait forever. -/
inductive RunResult where
  | ok (rc : Int) (stdoutJ stderrJ workDir : List Char) (rest : List ShellEvent)
  | panicked
  | blocked
deriving DecidableEq, Repr

/-- Select loop of Shell.Run (shell.go lines 187-212): a stdout line is
scanned for the sentinel; without it the line joins the stdout accumulator;
with it at offset k, a nonzero k first appends the prefix line[:k] to
stdout, then the slice from k is split on commas, fields 1 and 2 give the
exit code (strconv.Atoi, error discarded) and the new working directory,
and Run returns with a nil error. A stderr line joins the stderr
accumulator. -/
def shellRunLoop : List ShellEvent → List (List Char) → List (List Char) →
    RunResult
  | [], _, _ => .blocked
  | .out line :: rest, stdoutA, stderrA =>
    match indexOfSub line magicDelimiter with
    | some k =>
      let stdoutA' := if k ≠ 0 then stdoutA ++ [line.take k] else stdoutA
      let info := splitOnCh ',' (line.drop k)
      match info.get? 1, info.get? 2 with
      | some f1, some f2 =>
        .ok (goAtoi f1) (joinCh '\n' stdoutA') (joinCh '\n' stderrA) f2 rest
      | _, _ => .panicked
    | none => shellRunLoop rest (stdoutA ++ [line]) stderrA
  | .errOut line :: rest, stdoutA, stderrA =>
    shellRunLoop rest stdoutA (stderrA ++ [line])

/-- Shell.Run entry: empty accumulators, as the locals stdout and stderr
start nil. -/
def shellRun (events : List ShellEvent) : RunResult :=
  shellRunLoop events [] []

/-- Process state visible to Shell.Stop. Start sets the stdin pipe; the
exit status is what cmd.Wait observes once the process ends. -/
structure ShellProcState where
  stdinPipeSet : Bool
  stdinClosed : Bool
  waitCalled : Bool
  exitStatus : Int
deriving DecidableEq, Repr

/-- Errors surfaced by the modelled os/exec calls. -/
inductive GoErr where
  | waitAlreadyCalled
  | exitErr (rc : Int)
deriving DecidableEq, Repr

/-- cmd.Wait per the documented os/exec semantics: calling Wait a second
time returns the error `exec: Wait was already called`; otherwise Wait
records completion and returns an ExitError for a nonzero exit status and
nil for zero. -/
def goCmdWait (p : ShellProcState) : Option GoErr × ShellProcState :=
  if p.waitCalled then (some .waitAlreadyCalled, p)
  else if p.exitStatus ≠ 0 then
    (some (.exitErr p.exitStatus), { p with waitCalled := true })
  else (none, { p with waitCalled := true })

/-- Shell.Stop (shell.go lines 215-222): nil immediately when the stdin
pipe was never assigned (Start not run); otherwise close the pipe (the
Close error is discarded; closing twice is harmless) and return cmd.Wait. -/
def shellStop (p : ShellProcState) : Option GoErr × ShellProcState :=
  if ¬ p.stdinPipeSet then (none, p)
  else goCmdWait { p with stdinClosed := true }

/-! ## Runner (src/unnamed/part_000 lines 433-756, the shell-engine
snapshot) -/

/-- Observation constants of runner.go. -/
def obsSuccessNoOutput : List Char := ("success (no output)".toList)

/-- The generic failure observation of runShellAction for a nonzero exit
with empty stderr. -/
def failedExitMsg (rc : Int) : List Char :=
  ("failed (exit code: ".toList) ++ (toString rc).toList ++ [')']

/-- runShellAction (runner.go lines 650-680): the input splits on newlines
into statements run one at a time through shell.Run; rc, stdout and stderr
are loop-scoped variables reassigned by every call; a Run error aborts the
action (none, a fatal runner error); the first statement with a nonzero
exit returns its stderr, or the generic message when stderr is empty, and
no later statement runs; when every statement exits zero the observation
is the final stdout, or the no-output marker when that final stdout is
empty. `exec i` abstracts what the persistent shell returns for the i-th
Run call; the returned Nat counts Run calls. -/
def runShellActionLoop (exec : Nat → Option (Int × List Char × List Char)) :
    List (List Char) → Nat → List Char → Option (List Char × Nat)
  | [], calls, lastOut =>
    some (if lastOut = [] then obsSuccessNoOutput else lastOut, calls)
  | _ :: rest, calls, _ =>
    match exec calls with
    | none => none
    | some (rc, outS, errS) =>
      if rc ≠ 0 then
        some ((if errS = [] then failedExitMsg rc else errS), calls + 1)
      else runShellActionLoop exec rest (calls + 1) outS

/-- runShellAction entry: statements from strings.Split on newlines, zero
calls made, stdout variable initially empty. -/
def runShellAction (exec : Nat → Option (Int × List Char × List Char))
    (input : List Char) : Option (List Char × Nat) :=
  runShellActionLoop exec (splitOnCh '\n' input) 0 []

/-- Terminal state of Runner.Run. -/
inductive RunEnd where
  | success
  | budget
  | fatalErr
deriving DecidableEq, Repr

/-- What a finished Runner.Run exposes: which terminal state it reached
(done prints Done and returns nil; budget prints the maximum-steps message
and returns nil; fatalErr returns the error), how many completion calls
were made, and how many actions were dispatched. -/
structure RunnerOutcome where
  outcome : RunEnd
  turns : Nat
  dispatches : Nat
deriving DecidableEq, Repr

/-- A conversation entry: role and content. -/
structure HistMsg where
  role : String
  content : List Char
deriving DecidableEq, Repr

/-- The four dispatchable action names of the runner switch (runner.go
lines 542-553). -/
def dispatchActions : List (List Char) :=
  [("file".toList), ("python".toList), ("shell".toList), ("search".toList)]

/-- The turn loop of Runner.Run (runner.go lines 498-581) after a
successful shell.Start. `replies t` is what session.GetCompletion returns
on the t-th call (none = transport error, fatal); `acts d` is the
observation of the d-th dispatched action (none = a fatal action error
such as a spawn failure; errInvalidAction cannot come back because
decodeStep validated the action). An empty reply, a decode/validation
failure, and an invalid action name all retry the turn without counting a
step. After a dispatch the proposal and the observation join the history
and numStep increments; passing MaxSteps ends the run in the budget state.
Fuel bounds the recursion only: each recursive call is one loop iteration,
so any fuel at least the number of iterations gives the Go behavior, and
none means the fuel ran out while the loop was still going. -/
def runnerLoop (replies : Nat → Option (List Char))
    (acts : Nat → Option (List Char)) (maxSteps : Int) :
    Nat → Int → Nat → Nat → List HistMsg →
    Option (RunnerOutcome × List HistMsg)
  | 0, _, _, _, _ => none
  | fuel + 1, numStep, turns, disp, hist =>
    match replies turns with
    | none => some (⟨.fatalErr, turns + 1, disp⟩, hist)
    | some reply =>
      if reply = [] then
        runnerLoop replies acts maxSteps fuel numStep (turns + 1) disp hist
      else
        match decodeStepV2 reply with
        | none =>
          runnerLoop replies acts maxSteps fuel numStep (turns + 1) disp hist
        | some s =>
          if s.action = ("done".toList) then
            some (⟨.success, turns + 1, disp⟩, hist)
          else if s.action ∈ dispatchActions then
            match acts disp with
            | none => some (⟨.fatalErr, turns + 1, disp + 1⟩, hist)
            | some obs =>
              let hist' := hist ++
                [⟨"assistant", encodeStepV2 s⟩,
                 ⟨"user", encodeStepV2 ⟨[], [], [], obs⟩⟩]
              if numStep + 1 > maxSteps then
                some (⟨.budget, turns + 1, disp + 1⟩, hist')
              else
                runnerLoop replies acts maxSteps fuel (numStep + 1)
                  (turns + 1) (disp + 1) hist'
          else
            runnerLoop replies acts maxSteps fuel numStep (turns + 1) disp hist

/-- Runner.Run starts at numStep 1 with no turns, no dispatches, and the
history [user task] (the system prompt lives inside the session; the task
is appended before the loop). -/
def runnerRun (replies : Nat → Option (List Char))
    (acts : Nat → Option (List Char)) (maxSteps : Int) (fuel : Nat)
    (task : List Char) : Option (RunnerOutcome × List HistMsg) :=
  runnerLoop replies acts maxSteps fuel 1 0 0 [⟨"user", task⟩]

/-! ## Legacy one-shot shell command (src/runner.go lines 194-229 and the
first runner snapshot in src/unnamed/part_000 lines 229-267)

Both legacy variants run `bash -e -o pipefail -c input` once and shape a
successful (exit 0) stdout; the shaping alone is embedded, taking the raw
output bytes. -/

/-- Output shaping of runShellCommand in src/unnamed/part_000 lines
249-266: empty output becomes `Success (no output)`; more than 5 lines
keep only the last 5, joined back, with no marker line. -/
def legacyShellShapePart0 (output : List Char) : List Char :=
  if output = [] then ("Success (no output)".toList)
  else
    let lines := splitOnCh '\n' output
    if 5 < lines.length then joinCh '\n' (lines.drop (lines.length - 5))
    else output

/-- Output shaping of runShellCommand in src/runner.go lines 212-228 as
evidently intended: empty output becomes `Success`; more than 5 lines keep
the last 5 with the elision marker line prepended. The marker line in the
source, `lines.append(["...(snip)..."], lines...)` (line 224), is not
valid Go — slices have no append method and the bracketed literal is not
Go syntax — so the file as written does not compile; the evident intent is
`lines = append([]string\x7b"...(snip)..."\x7d, lines...)`. -/
def legacyShellShapeSrcIntended (output : List Char) : List Char :=
  if output = [] then ("Success".toList)
  else
    let lines := splitOnCh '\n' output
    if 5 < lines.length then
      joinCh '\n' (("...(snip)...".toList) :: lines.drop (lines.length - 5))
    else output

/-! ## Session (src/session.go) -/

/-- One chat message of the session. -/
structure SessMsg where
  role : String
  content : String
deriving DecidableEq, Repr

/-- NewSession (src/session.go lines 16-26): the history starts with the
system-instructions message. -/
def newSessionMsgs (sys : String) : List SessMsg :=
  [⟨"system", sys⟩]

/-- Session.Rewind (src/session.go lines 56-62): a single-message history
is untouched; otherwise the last two messages are dropped
(s.Messages[:len-2]; a history shorter than the system message alone never
arises from NewSession, so the Go slice bound is in range whenever the
branch runs on reachable histories). -/
def sessionRewind (ms : List SessMsg) : List SessMsg :=
  if ms.length = 1 then ms else ms.take (ms.length - 2)

/-- The session operations of the claim universe: a successful Send (which
appends the user message and then the assistant reply, src/session.go
lines 28-54) and Rewind. -/
inductive SessOp where
  | send (userMsg reply : String)
  | rewind
deriving DecidableEq, Repr

/-- Apply one session operation to the message history. -/
def applySessOp (ms : List SessMsg) : SessOp → List SessMsg
  | .send u a => ms ++ [⟨"user", u⟩, ⟨"assistant", a⟩]
  | .rewind => sessionRewind ms

/-- A whole operation sequence from a fresh session. -/
def sessionHistory (sys : String) (ops : List SessOp) : List SessMsg :=
  ops.foldl applySessOp (newSessionMsgs sys)

/-- Stdout lines among a shell event list. -/
def outLines (es : List ShellEvent) : List (List Char) :=
  es.filterMap fun e => match e with
    | .out l => some l
    | .errOut _ => none

/-- Stderr lines among a shell event list. -/
def errLines (es : List ShellEvent) : List (List Char) :=
  es.filterMap fun e => match e with
    | .out _ => none
    | .errOut l => some l

/-! ## Supporting lemmas about the string primitives -/

theorem splitOnCh_ne_nil (sep : Char) (s : List Char) :
    splitOnCh sep s ≠ [] := by
  cases s with
  | nil => simp [splitOnCh]
  | cons c rest =>
    simp only [splitOnCh]
    split
    · simp
    · cases h : splitOnCh sep rest <;> simp

theorem splitOnCh_of_not_mem {sep : Char} {s : List Char} (h : sep ∉ s) :
    splitOnCh sep s = [s] := by
  induction s with
  | nil => rfl
  | cons c rest ih =>
    simp only [List.mem_cons, not_or] at h
    have hc : ¬c = sep := fun hh => h.1 hh.symm
    simp only [splitOnCh, if_neg hc, ih h.2]

theorem splitOnCh_append_sep (sep : Char) (a b : List Char) :
    splitOnCh sep (a ++ sep :: b) = splitOnCh sep a ++ splitOnCh sep b := by
  induction a with
  | nil => simp [splitOnCh]
  | cons c rest ih =>
    by_cases hc : c = sep
    · simp only [List.cons_append, splitOnCh, if_pos hc, List.append_eq, ih,
        List.cons_append]
    · simp only [List.cons_append, splitOnCh, if_neg hc, List.append_eq]
      rw [ih]
      rcases hsp : splitOnCh sep rest with _ | ⟨h1, t1⟩
      · exact absurd hsp (splitOnCh_ne_nil sep rest)
      · simp [hsp]

theorem joinCh_splitOnCh (sep : Char) (s : List Char) :
    joinCh sep (splitOnCh sep s) = s := by
  induction s with
  | nil => rfl
  | cons c rest ih =>
    rcases hsp : splitOnCh sep rest with _ | ⟨h1, t1⟩
    · exact absurd hsp (splitOnCh_ne_nil sep rest)
    · rw [hsp] at ih
      by_cases hc : c = sep
      · simp only [splitOnCh, if_pos hc, hsp, joinCh, hc]
        simpa using ih
      · simp only [splitOnCh, if_neg hc, hsp]
        cases t1 with
        | nil =>
          simp only [joinCh] at ih ⊢
          simp [ih]
        | cons t2 ts =>
          simp only [joinCh, List.cons_append] at ih ⊢
          rw [ih]

theorem splitN2_first {sep : Char} {a : List Char} (b : List Char)
    (h : sep ∉ a) : splitN2 sep (a ++ sep :: b) = [a, b] := by
  induction a with
  | nil => simp [splitN2]
  | cons c rest ih =>
    simp only [List.mem_cons, not_or] at h
    have hc : ¬c = sep := fun hh => h.1 hh.symm
    simp only [List.cons_append, splitN2, if_neg hc, List.append_eq, ih h.2]

theorem isPrefixL_self_append (p r : List Char) :
    isPrefixL p (p ++ r) = true := by
  induction p with
  | nil => rfl
  | cons c rest ih => simp [isPrefixL, ih]

theorem trimChars_cons_of_mem {cut : List Char} {c : Char} (s : List Char)
    (h : c ∈ cut) : trimChars cut (c :: s) = trimChars cut s := by
  simp [trimChars, trimLeftChars, h]

theorem get?_zero_headI {α : Type} [Inhabited α] {l : List α} (h : l ≠ []) :
    l.get? 0 = some l.headI := by
  cases l with
  | nil => exact absurd rfl h
  | cons a t => rfl

/-! ## Claim theorems -/

/-- C4: Validate (src/step.go lines 16-36) returns nil whenever the action
is done, regardless of the other fields; for every other action it returns
an error exactly when the thought is empty, the input is empty, or the
action name lies outside the set file, shell, python, search, cd, done.
The embedding is a total function, as the Go body is straight-line code
with no indexing or dereference, so no panic is possible. -/
theorem validateGo_spec (s : GoStep) :
    (s.action = ("done".toList) → validateGo s = none) ∧
    (s.action ≠ ("done".toList) →
      (validateGo s ≠ none ↔
        (s.thought = [] ∨ s.input = [] ∨
          s.action ∉ [("file".toList), ("shell".toList), ("python".toList),
            ("search".toList), ("cd".toList), ("done".toList)]))) := by
  constructor
  · intro h
    simp [validateGo, h]
  · intro h
    unfold validateGo
    rw [if_neg h]
    by_cases ht : s.thought = []
    · simp [ht]
    · rw [if_neg ht]
      by_cases hi : s.input = []
      · simp [hi]
      · rw [if_neg hi]
        by_cases ha : s.action ∈ [("file".toList), ("cd".toList),
            ("python".toList), ("shell".toList), ("search".toList)]
        · rw [if_pos ha]
          simp only [List.mem_cons, List.not_mem_nil, or_false] at ha
          simp only [ne_eq, not_true_eq_false, false_iff,
            List.mem_cons, List.not_mem_nil, or_false, not_or, not_not]
          push_neg
          refine ⟨ht, hi, ?_⟩
          tauto
        · rw [if_neg ha]
          simp only [List.mem_cons, List.not_mem_nil, or_false, not_or] at ha ⊢
          simp only [ne_eq, reduceCtorEq, not_false_eq_true, true_iff]
          push_neg
          tauto

/-- C4 witness: the theorem applied to a concrete done Step. -/
theorem validateGo_spec_witness :
    validateGo ⟨[], ("done".toList), [], []⟩ = none :=
  (validateGo_spec ⟨[], ("done".toList), [], []⟩).1 rfl

/-- C7: divergence of the code from the truncation-with-marker claim,
evaluated at the failing input (a successful shell action whose stdout has
10 lines). The current runShellAction returns the 10-line stdout
untouched — no last-N truncation and no elision marker; the legacy
runShellCommand of src/unnamed/part_000 truncates the raw output to its
last 5 lines without any marker; only the evident intent of the
non-compiling marker line in src/runner.go (line 224) would prepend
`...(snip)...`. -/
theorem shellOutput_truncation_divergence :
    runShellAction (fun _ => some (0, ("1\n2\n3\n4\n5\n6\n7\n8\n9\n10".toList), []))
        ("seq 10".toList)
      = some (("1\n2\n3\n4\n5\n6\n7\n8\n9\n10".toList), 1) ∧
    legacyShellShapePart0 ("1\n2\n3\n4\n5\n6\n7\n8\n9\n10\n".toList)
      = ("7\n8\n9\n10\n".toList) ∧
    legacyShellShapeSrcIntended ("1\n2\n3\n4\n5\n6\n7\n8\n9\n10\n".toList)
      = ("...(snip)...\n7\n8\n9\n10\n".toList) := by decide

/-- C8 counterexample: on a started session whose process Wait would see a
zero status, the first Stop returns nil but the second Stop returns an
error (cmd.Wait refuses a repeated call), so Stop is not error-free on a
second invocation as claimed. -/
theorem shellStop_second_call_cx :
    (shellStop ⟨true, false, false, 0⟩).1 = none ∧
    (shellStop (shellStop ⟨true, false, false, 0⟩).2).1 ≠ none := by decide

/-- C8 amended: Stop on a never-started session returns nil with no state
change; Stop never panics (the embedding is total, mirroring the
straight-line Go body); but a second Stop after a first one returns the
Wait-already-called error as a value, and the first Stop after an abnormal
(nonzero-status) process exit returns the process exit error as a value.
Teardown invokes Stop exactly once, so the error paths are benign there. -/
theorem shellStop_amended (p : ShellProcState) :
    (p.stdinPipeSet = false → shellStop p = (none, p)) ∧
    (p.stdinPipeSet = true → p.waitCalled = false →
      (shellStop (shellStop p).2).1 = some GoErr.waitAlreadyCalled) ∧
    (p.stdinPipeSet = true → p.waitCalled = false → p.exitStatus ≠ 0 →
      (shellStop p).1 = some (GoErr.exitErr p.exitStatus)) := by
  refine ⟨?_, ?_, ?_⟩
  · intro h
    simp [shellStop, h]
  · intro h hw
    by_cases he : p.exitStatus = 0 <;>
      simp [shellStop, goCmdWait, h, hw, he]
  · intro h hw he
    simp [shellStop, goCmdWait, h, hw, he]

/-- C8 amended witness: the amended theorem applied to a started session
with an abnormal exit status, and to a repeated Stop. -/
theorem shellStop_amended_witness :
    (shellStop (shellStop ⟨true, false, false, 3⟩).2).1
        = some GoErr.waitAlreadyCalled ∧
    (shellStop ⟨true, false, false, 3⟩).1 = some (GoErr.exitErr 3) :=
  ⟨(shellStop_amended ⟨true, false, false, 3⟩).2.1 rfl rfl,
   (shellStop_amended ⟨true, false, false, 3⟩).2.2 rfl rfl (by decide)⟩

theorem runShellActionLoop_first_failure
    (exec : Nat → Option (Int × List Char × List Char))
    (outs errs : Nat → List Char) (rcj : Int) (outj errj : List Char) :
    ∀ (cs : List (List Char)) (j calls : Nat) (lastOut : List Char),
    j < cs.length →
    (∀ i, i < j → exec (calls + i) = some (0, outs (calls + i), errs (calls + i))) →
    exec (calls + j) = some (rcj, outj, errj) → rcj ≠ 0 →
    runShellActionLoop exec cs calls lastOut
      = some ((if errj = [] then failedExitMsg rcj else errj), calls + j + 1) := by
  intro cs
  induction cs with
  | nil =>
    intro j calls lastOut hj
    simp at hj
  | cons c rest ih =>
    intro j calls lastOut hj hok hfail hrc
    cases j with
    | zero =>
      simp only [Nat.add_zero] at hfail
      simp [runShellActionLoop, hfail, hrc]
    | succ j' =>
      have h0 : exec calls = some (0, outs calls, errs calls) := by
        have := hok 0 (Nat.succ_pos j')
        simpa using this
      simp only [runShellActionLoop, h0]
      norm_num
      have harith : calls + (j' + 1) + 1 = calls + 1 + j' + 1 := by omega
      rw [harith]
      refine ih j' (calls + 1) (outs calls) (by simpa using hj) ?_ ?_ hrc
      · intro i hi
        have := hok (i + 1) (by omega)
        have he : calls + (i + 1) = calls + 1 + i := by omega
        rwa [he] at this
      · have he : calls + (j' + 1) = calls + 1 + j' := by omega
        rwa [he] at hfail

/-- C6: runShellAction (src/unnamed/part_000 lines 650-680) feeds the
newline-split statements of the input to the shell engine one at a time in
order; at the first statement whose exit code is nonzero it stops — the
Run-call count is one past that statement's index, so later statements
never reach the engine — and the observation is that statement's
accumulated stderr, or the generic failure message carrying the actual
exit code when that stderr is empty. -/
theorem runShellAction_first_failure
    (exec : Nat → Option (Int × List Char × List Char))
    (outs errs : Nat → List Char) (input : List Char) (j : Nat)
    (rcj : Int) (outj errj : List Char)
    (hj : j < (splitOnCh '\n' input).length)
    (hok : ∀ i, i < j → exec i = some (0, outs i, errs i))
    (hfail : exec j = some (rcj, outj, errj)) (hrc : rcj ≠ 0) :
    runShellAction exec input
      = some ((if errj = [] then failedExitMsg rcj else errj), j + 1) := by
  have := runShellActionLoop_first_failure exec outs errs rcj outj errj
    (splitOnCh '\n' input) j 0 [] hj
    (by intro i hi; simpa using hok i hi) (by simpa using hfail) hrc
  simpa [runShellAction] using this

/-- C6 witness: the theorem at a concrete three-statement input whose
second statement fails with exit code 2 and stderr boom. -/
theorem runShellAction_first_failure_witness :
    runShellAction
        (fun i => if i = 0 then some (0, ("x".toList), [])
          else some (2, [], ("boom".toList)))
        ("a\nb\nc".toList)
      = some (("boom".toList), 2) := by
  have := runShellAction_first_failure
    (fun i => if i = 0 then some (0, ("x".toList), [])
      else some (2, [], ("boom".toList)))
    (fun _ => ("x".toList)) (fun _ => []) ("a\nb\nc".toList) 1 2 [] ("boom".toList)
    (by decide) (by decide) (by decide) (by decide)
  simpa using this

theorem runShellActionLoop_all_zero
    (exec : Nat → Option (Int × List Char × List Char))
    (outs errs : Nat → List Char) :
    ∀ (rest : List (List Char)) (c : List Char) (calls : Nat)
      (lastOut : List Char),
    (∀ i, i < (c :: rest).length →
      exec (calls + i) = some (0, outs (calls + i), errs (calls + i))) →
    runShellActionLoop exec (c :: rest) calls lastOut
      = some (
          (if outs (calls + rest.length) = [] then obsSuccessNoOutput
            else outs (calls + rest.length)),
          calls + rest.length + 1) := by
  intro rest
  induction rest with
  | nil =>
    intro c calls lastOut hall
    have h0 : exec calls = some (0, outs calls, errs calls) := by
      have := hall 0 (by simp)
      simpa using this
    simp [runShellActionLoop, h0]
  | cons r2 rs ih =>
    intro c calls lastOut hall
    have h0 : exec calls = some (0, outs calls, errs calls) := by
      have := hall 0 (by simp)
      simpa using this
    have hstep : runShellActionLoop exec (c :: r2 :: rs) calls lastOut
        = runShellActionLoop exec (r2 :: rs) (calls + 1) (outs calls) := by
      simp [runShellActionLoop, h0]
    rw [hstep]
    have := ih r2 (calls + 1) (outs calls) (by
      intro i hi
      have := hall (i + 1) (by
        simp only [List.length_cons] at hi ⊢
        omega)
      have he : calls + (i + 1) = calls + 1 + i := by omega
      rwa [he] at this)
    rw [this]
    have he : calls + 1 + rs.length = calls + (rs.length + 1) := by omega
    rw [he]
    have he2 : calls + (rs.length + 1) + 1 = calls + (r2 :: rs).length + 1 := by
      simp
    rw [he2]
    simp [List.length_cons]

/-- C10: when every statement of a multi-line shell action exits zero, the
observation is built only from the stdout of the final shell.Run call —
each call overwrites the loop variable, so stdout from earlier statements
is discarded — and when that final stdout is empty the observation is the
success-with-no-output marker even if earlier statements produced output
(the observation expression mentions only the last index). -/
theorem runShellAction_last_stdout_only
    (exec : Nat → Option (Int × List Char × List Char))
    (outs errs : Nat → List Char) (input : List Char)
    (hall : ∀ i, i < (splitOnCh '\n' input).length →
      exec i = some (0, outs i, errs i)) :
    runShellAction exec input
      = some (
          (if outs ((splitOnCh '\n' input).length - 1) = []
            then obsSuccessNoOutput
            else outs ((splitOnCh '\n' input).length - 1)),
          (splitOnCh '\n' input).length) := by
  rcases hsp : splitOnCh '\n' input with _ | ⟨c, rest⟩
  · exact absurd hsp (splitOnCh_ne_nil '\n' input)
  · rw [hsp] at hall
    have := runShellActionLoop_all_zero exec outs errs rest c 0 []
      (by intro i hi; simpa using hall i hi)
    simp only [runShellAction, hsp, List.length_cons, Nat.add_sub_cancel]
    simpa using this

/-- C10 witness: two statements, the first with output and the second
without; the observation is the no-output marker. -/
theorem runShellAction_last_stdout_only_witness :
    runShellAction
        (fun i => if i = 0 then some (0, ("early".toList), []) else some (0, [], []))
        ("a\nb".toList)
      = some (obsSuccessNoOutput, 2) := by
  have := runShellAction_last_stdout_only
    (fun i => if i = 0 then some (0, ("early".toList), []) else some (0, [], []))
    (fun i => if i = 0 then ("early".toList) else []) (fun _ => [])
    ("a\nb".toList) (by decide)
  simpa using this

theorem indexOfSub_prefix_zero {p : List Char} (r : List Char) (hp : p ≠ []) :
    indexOfSub (p ++ r) p = some 0 := by
  cases p with
  | nil => exact absurd rfl hp
  | cons c ps =>
    simp only [List.cons_append, indexOfSub, isPrefixL_self_append]
    rw [if_pos]
    exact isPrefixL_self_append (c :: ps) r ▸ rfl

theorem shellRunLoop_consume (es : List ShellEvent) :
    ∀ (rest : List ShellEvent) (stdoutA stderrA : List (List Char)),
    (∀ l, ShellEvent.out l ∈ es → indexOfSub l magicDelimiter = none) →
    shellRunLoop (es ++ rest) stdoutA stderrA
      = shellRunLoop rest (stdoutA ++ outLines es) (stderrA ++ errLines es) := by
  induction es with
  | nil =>
    intro rest stdoutA stderrA _
    simp [outLines, errLines]
  | cons e es ih =>
    intro rest stdoutA stderrA h
    cases e with
    | out l =>
      have hl : indexOfSub l magicDelimiter = none :=
        h l (List.mem_cons_self _ _)
      simp only [List.cons_append, shellRunLoop, hl, List.append_eq]
      rw [ih rest (stdoutA ++ [l]) stderrA
        (fun l2 hm => h l2 (List.mem_cons_of_mem _ hm))]
      simp [outLines, errLines, List.filterMap_cons]
    | errOut l =>
      simp only [List.cons_append, shellRunLoop, List.append_eq]
      rw [ih rest stdoutA (stderrA ++ [l])
        (fun l2 hm => h l2 (List.mem_cons_of_mem _ hm))]
      simp [outLines, errLines, List.filterMap_cons]

/-- The select-loop step on a stdout line carrying the sentinel at offset
pre.length: the prefix (when nonempty) joins the stdout accumulator, the
first comma field after the token parses as the exit code, and the second
comma field after the token becomes the new working directory. -/
theorem shellRunLoop_sentinel_step (stdoutA stderrA : List (List Char))
    (pre rcStr wd : List Char) (rest : List ShellEvent)
    (hidx : indexOfSub (pre ++ magicDelimiter ++ ',' :: rcStr ++ ',' :: wd)
        magicDelimiter = some pre.length)
    (hrc : ',' ∉ rcStr) :
    shellRunLoop
        (.out (pre ++ magicDelimiter ++ ',' :: rcStr ++ ',' :: wd) :: rest)
        stdoutA stderrA
      = .ok (goAtoi rcStr)
          (joinCh '\n' (if pre = [] then stdoutA else stdoutA ++ [pre]))
          (joinCh '\n' stderrA)
          ((splitOnCh ',' wd).headI) rest := by
  have hline : pre ++ magicDelimiter ++ ',' :: rcStr ++ ',' :: wd
      = pre ++ (magicDelimiter ++ ',' :: (rcStr ++ ',' :: wd)) := by
    simp
  rw [hline] at hidx ⊢
  have htake : (pre ++ (magicDelimiter ++ ',' :: (rcStr ++ ',' :: wd))).take pre.length
      = pre := List.take_left _ _
  have hdrop : (pre ++ (magicDelimiter ++ ',' :: (rcStr ++ ',' :: wd))).drop pre.length
      = magicDelimiter ++ ',' :: (rcStr ++ ',' :: wd) := List.drop_left _ _
  have hsplit : splitOnCh ',' (magicDelimiter ++ ',' :: (rcStr ++ ',' :: wd))
      = magicDelimiter :: rcStr :: splitOnCh ',' wd := by
    rw [splitOnCh_append_sep, splitOnCh_append_sep,
      splitOnCh_of_not_mem (show ',' ∉ magicDelimiter by decide),
      splitOnCh_of_not_mem hrc]
    simp
  simp only [shellRunLoop, hidx, htake, hdrop, hsplit]
  have hget1 : (magicDelimiter :: rcStr :: splitOnCh ',' wd).get? 1 = some rcStr := rfl
  have hget2 : (magicDelimiter :: rcStr :: splitOnCh ',' wd).get? 2
      = some ((splitOnCh ',' wd).headI) := by
    simp only [List.get?]
    exact get?_zero_headI (splitOnCh_ne_nil ',' wd)
  rw [hget1, hget2]
  by_cases hpre : pre = []
  · simp [hpre]
  · have : pre.length ≠ 0 := fun h => hpre (List.length_eq_zero.mp h)
    simp [hpre, this]

/-- C1: in Shell.Run (shell.go lines 175-213), a stdout line holding the
sentinel token at offset k has, when k is positive, its prefix before the
token appended to the accumulated stdout as real command output (an empty
prefix appends nothing); the returned exit code is strconv.Atoi of the
first comma-separated field after the token, and the session's stored
working directory becomes the second comma-separated field after the token
— for any prefix, any exit-code field without commas, and every possible
working-directory string (of which only the part before its first comma
survives the split). -/
theorem shellRun_sentinel_line_spec (stdoutA stderrA : List (List Char))
    (pre rcStr wd : List Char) (rest : List ShellEvent)
    (hidx : indexOfSub (pre ++ magicDelimiter ++ ',' :: rcStr ++ ',' :: wd)
        magicDelimiter = some pre.length)
    (hrc : ',' ∉ rcStr) :
    shellRunLoop
        (.out (pre ++ magicDelimiter ++ ',' :: rcStr ++ ',' :: wd) :: rest)
        stdoutA stderrA
      = .ok (goAtoi rcStr)
          (joinCh '\n' (if pre = [] then stdoutA else stdoutA ++ [pre]))
          (joinCh '\n' stderrA)
          ((splitOnCh ',' wd).headI) rest :=
  shellRunLoop_sentinel_step stdoutA stderrA pre rcStr wd rest hidx hrc

/-- C1 witness: the theorem at a concrete line with trailing output before
the token, exit code field 3, and a working directory containing a comma,
whose second field is the part before that comma. -/
theorem shellRun_sentinel_line_spec_witness :
    shellRunLoop
        (.out (("out".toList) ++ magicDelimiter ++ ',' :: ("3".toList)
          ++ ',' :: ("/tmp,x".toList)) :: [])
        [("a".toList)] []
      = .ok (goAtoi ("3".toList))
          (joinCh '\n' [("a".toList), ("out".toList)]) (joinCh '\n' [])
          ((splitOnCh ',' ("/tmp,x".toList)).headI) [] := by
  have := shellRun_sentinel_line_spec [("a".toList)] []
    ("out".toList) ("3".toList) ("/tmp,x".toList) [] (by decide) (by decide)
  simpa using this

/-- C3: whenever the event stream of a command contains the sentinel line
(here after any sentinel-free stdout and stderr traffic), Shell.Run
returns through its nil-error branch with the exit code carried as data —
whatever its value — together with the accumulated stdout and stderr, and
a subsequent command on the same session likewise completes through the
sentinel. Instantiating the exit-code field with 3 gives exit code 3, as
for the command exit 3. -/
theorem shellRun_exit_code_as_data (es : List ShellEvent)
    (rcStr wd : List Char) (rest : List ShellEvent)
    (rcStr2 wd2 : List Char) (rest2 : List ShellEvent)
    (hes : ∀ l, ShellEvent.out l ∈ es → indexOfSub l magicDelimiter = none)
    (hrc : ',' ∉ rcStr) (hwd : ',' ∉ wd)
    (hrc2 : ',' ∉ rcStr2) (hwd2 : ',' ∉ wd2) :
    shellRun (es ++ .out (magicDelimiter ++ ',' :: rcStr ++ ',' :: wd) :: rest)
      = .ok (goAtoi rcStr) (joinCh '\n' (outLines es))
          (joinCh '\n' (errLines es)) wd rest ∧
    shellRun (.out (magicDelimiter ++ ',' :: rcStr2 ++ ',' :: wd2) :: rest2)
      = .ok (goAtoi rcStr2) [] [] wd2 rest2 := by
  have hmagic : (magicDelimiter : List Char) ≠ [] := by decide
  constructor
  · unfold shellRun
    rw [shellRunLoop_consume es _ [] [] hes]
    have hidx : indexOfSub (([] : List Char) ++ magicDelimiter ++ ',' :: rcStr ++ ',' :: wd)
        magicDelimiter = some ([] : List Char).length := by
      have h2 : (([] : List Char) ++ magicDelimiter ++ ',' :: rcStr ++ ',' :: wd)
          = magicDelimiter ++ (',' :: (rcStr ++ ',' :: wd)) := by simp
      rw [h2]
      exact indexOfSub_prefix_zero _ hmagic
    have hstep := shellRunLoop_sentinel_step (outLines es) (errLines es)
      [] rcStr wd rest hidx hrc
    simp only [List.nil_append, if_pos] at hstep
    simp only [List.nil_append]
    rw [hstep]
    simp [splitOnCh_of_not_mem hwd]
  · unfold shellRun
    have hidx : indexOfSub (([] : List Char) ++ magicDelimiter ++ ',' :: rcStr2 ++ ',' :: wd2)
        magicDelimiter = some ([] : List Char).length := by
      have h2 : (([] : List Char) ++ magicDelimiter ++ ',' :: rcStr2 ++ ',' :: wd2)
          = magicDelimiter ++ (',' :: (rcStr2 ++ ',' :: wd2)) := by simp
      rw [h2]
      exact indexOfSub_prefix_zero _ hmagic
    have hstep := shellRunLoop_sentinel_step [] [] [] rcStr2 wd2 rest2 hidx hrc2
    simp only [List.nil_append, if_pos] at hstep
    rw [hstep]
    simp [splitOnCh_of_not_mem hwd2, joinCh]

/-- C3 witness: a first command whose events are one plain stdout line, one
stderr line and the sentinel with exit code 3 (as for exit 3), then a
second command ending with exit code 0; both return through the nil-error
branch. -/
theorem shellRun_exit_code_as_data_witness :
    shellRun [.out ("hi".toList), .errOut ("oops".toList),
        .out (magicDelimiter ++ ',' :: ("3".toList) ++ ',' :: ("/w".toList))]
      = .ok 3 ("hi".toList) ("oops".toList) ("/w".toList) [] ∧
    shellRun [.out (magicDelimiter ++ ',' :: ("0".toList) ++ ',' :: ("/w".toList))]
      = .ok 0 [] [] ("/w".toList) [] := by
  have := shellRun_exit_code_as_data
    [.out ("hi".toList), .errOut ("oops".toList)]
    ("3".toList) ("/w".toList) [] ("0".toList) ("/w".toList) []
    (by
      intro l hm
      simp only [List.mem_cons, List.not_mem_nil, or_false] at hm
      rcases hm with h | h
      · injection h with h2
        subst h2
        decide
      · simp at h)
    (by decide) (by decide) (by decide) (by decide)
  simpa [outLines, errLines, List.filterMap_cons] using this

theorem take_length_sub_two {α : Type} (ms : List α) :
    ms.take (ms.length - 2) = ms.dropLast.dropLast := by
  simp only [List.dropLast_eq_take, List.take_take, List.length_take]
  congr 1
  omega

theorem sessionHistory_inv (sys : String) (ops : List SessOp) :
    (sessionHistory sys ops).head? = some ⟨"system", sys⟩ ∧
    (sessionHistory sys ops).length % 2 = 1 := by
  induction ops using List.reverseRecOn with
  | nil => simp [sessionHistory, newSessionMsgs]
  | append_singleton l op ih =>
    rw [sessionHistory, List.foldl_append] at *
    simp only [List.foldl_cons, List.foldl_nil]
    rcases hms : l.foldl applySessOp (newSessionMsgs sys) with _ | ⟨m, tail⟩
    · rw [hms] at ih
      simp at ih
    · rw [hms] at ih
      obtain ⟨ihh, iho⟩ := ih
      simp only [List.head?_cons, Option.some.injEq] at ihh
      subst ihh
      cases op with
      | send u a =>
        constructor
        · simp [applySessOp]
        · simp only [applySessOp, List.length_append, List.length_cons,
            List.length_nil] at iho ⊢
          omega
      | rewind =>
        by_cases h1 : (SessMsg.mk "system" sys :: tail).length = 1
        · simp [applySessOp, sessionRewind, h1]
        · have hlen : 3 ≤ (SessMsg.mk "system" sys :: tail).length := by
            simp only [List.length_cons] at *
            omega
          simp only [applySessOp, sessionRewind, if_neg h1]
          have hsub : (SessMsg.mk "system" sys :: tail).length - 2
              = ((SessMsg.mk "system" sys :: tail).length - 3) + 1 := by
            omega
          rw [hsub]
          constructor
          · simp [List.take_succ_cons]
          · simp only [List.length_take, List.length_cons] at *
            omega

/-- C9: starting from NewSession (src/session.go lines 16-26), any
sequence of successful Send exchanges (each appending the user message and
the assistant reply) and Rewind calls leaves the system-instructions
message as the first element of the history; Rewind (lines 56-62) on the
history holding only the system message is a no-op, and on any longer
reachable history it removes exactly the last two messages — the last
user/assistant exchange — and never the system message, which stays at the
head. -/
theorem session_system_first (sys : String) (ops : List SessOp) :
    (sessionHistory sys ops).head? = some ⟨"system", sys⟩ ∧
    ((sessionHistory sys ops).length = 1 →
      sessionRewind (sessionHistory sys ops) = sessionHistory sys ops) ∧
    (1 < (sessionHistory sys ops).length →
      sessionRewind (sessionHistory sys ops)
          = (sessionHistory sys ops).dropLast.dropLast ∧
      (sessionRewind (sessionHistory sys ops)).head? = some ⟨"system", sys⟩) := by
  obtain ⟨hhead, hodd⟩ := sessionHistory_inv sys ops
  refine ⟨hhead, ?_, ?_⟩
  · intro h1
    simp [sessionRewind, h1]
  · intro hlen
    have hne : (sessionHistory sys ops).length ≠ 1 := by omega
    constructor
    · rw [sessionRewind, if_neg hne]
      exact take_length_sub_two _
    · have hrw := (sessionHistory_inv sys (ops ++ [SessOp.rewind])).1
      rw [sessionHistory, List.foldl_append] at hrw
      simpa [applySessOp, sessionHistory] using hrw

/-- C9 witness: the theorem applied to a concrete operation sequence of two
sends and one rewind; the head stays the system message and the rewind
drops exactly the final exchange. -/
theorem session_system_first_witness :
    sessionRewind (sessionHistory "sys" [SessOp.send "u1" "a1", SessOp.send "u2" "a2"])
        = (sessionHistory "sys" [SessOp.send "u1" "a1", SessOp.send "u2" "a2"]).dropLast.dropLast ∧
    (sessionRewind (sessionHistory "sys" [SessOp.send "u1" "a1", SessOp.send "u2" "a2"])).head?
        = some ⟨"system", "sys"⟩ :=
  (session_system_first "sys" [SessOp.send "u1" "a1", SessOp.send "u2" "a2"]).2.2
    (by decide)

theorem validateV2_none_action {s : StepV2} (h : validateV2 s = none) :
    s.action = ("done".toList) ∨ s.action ∈ dispatchActions := by
  by_cases hd : s.action = ("done".toList)
  · exact Or.inl hd
  · right
    unfold validateV2 at h
    rw [if_neg hd] at h
    by_cases ht : s.thought = []
    · simp [ht] at h
    · rw [if_neg ht] at h
      by_cases hi : s.input = []
      · simp [hi] at h
      · rw [if_neg hi] at h
        by_cases hm : s.action ∈ [("file".toList), ("python".toList),
            ("shell".toList), ("search".toList)]
        · simpa [dispatchActions] using hm
        · rw [if_neg hm] at h
          simp at h

theorem decodeStepV2_some {msg : List Char} {s : StepV2}
    (h : decodeStepV2 msg = some s) : validateV2 s = none := by
  unfold decodeStepV2 at h
  rcases hv : validateV2 ⟨(decodeTriple msg).thought, (decodeTriple msg).action,
      (decodeTriple msg).input, []⟩ with _ | e
  · rw [hv] at h
    simp only [Option.some.injEq] at h
    rw [← h]
    exact hv
  · rw [hv] at h
    exact absurd h (by simp)

theorem runnerLoop_budget_aux (replies : Nat → Option (List Char))
    (acts : Nat → Option (List Char)) (maxSteps : Int) :
    ∀ (k fuel : Nat) (numStep : Int) (turns disp : Nat) (hist : List HistMsg),
    1 ≤ k → k ≤ fuel → numStep + (k : Int) = maxSteps + 1 →
    (∀ j, j < k → ∃ r s, replies (turns + j) = some r ∧ r ≠ [] ∧
      decodeStepV2 r = some s ∧ s.action ≠ ("done".toList)) →
    (∀ j, j < k → (acts (disp + j)).isSome) →
    ∃ hist2, runnerLoop replies acts maxSteps fuel numStep turns disp hist
      = some (⟨.budget, turns + k, disp + k⟩, hist2) := by
  intro k
  induction k with
  | zero =>
    intro fuel numStep turns disp hist h1
    exact absurd h1 (by omega)
  | succ k ih =>
    intro fuel numStep turns disp hist _ hkf harith hrep hact
    obtain ⟨fuel, rfl⟩ : ∃ f, fuel = f + 1 := ⟨fuel - 1, by omega⟩
    obtain ⟨r, s, hr, hrne, hdec, hnd⟩ := hrep 0 (Nat.succ_pos k)
    rw [Nat.add_zero] at hr
    have hmem : s.action ∈ dispatchActions :=
      (validateV2_none_action (decodeStepV2_some hdec)).resolve_left hnd
    have hobs := hact 0 (Nat.succ_pos k)
    rw [Nat.add_zero] at hobs
    obtain ⟨obs, hobs⟩ := Option.isSome_iff_exists.mp hobs
    simp only [runnerLoop, hr, if_neg hrne, hdec, if_neg hnd, if_pos hmem,
      hobs]
    by_cases hbud : numStep + 1 > maxSteps
    · have hk0 : k = 0 := by omega
      subst hk0
      rw [if_pos hbud]
      exact ⟨_, rfl⟩
    · rw [if_neg hbud]
      have hk1 : 1 ≤ k := by omega
      obtain ⟨hist2, hrun⟩ := ih fuel (numStep + 1) (turns + 1) (disp + 1)
        (hist ++ [⟨"assistant", encodeStepV2 s⟩,
          ⟨"user", encodeStepV2 ⟨[], [], [], obs⟩⟩])
        hk1 (by omega) (by push_cast at harith ⊢; omega)
        (by
          intro j hj
          have := hrep (j + 1) (by omega)
          have he : turns + (j + 1) = turns + 1 + j := by omega
          rwa [he] at this)
        (by
          intro j hj
          have := hact (j + 1) (by omega)
          have he : disp + (j + 1) = disp + 1 + j := by omega
          rwa [he] at this)
      refine ⟨hist2, ?_⟩
      rw [hrun]
      have he1 : turns + 1 + k = turns + (k + 1) := by omega
      have he2 : disp + 1 + k = disp + (k + 1) := by omega
      rw [he1, he2]

theorem runnerLoop_done_step (replies acts : Nat → Option (List Char))
    (maxSteps : Int) (fuel : Nat) (numStep : Int) (turns disp : Nat)
    (hist : List HistMsg) (hfuel : 1 ≤ fuel)
    (r : List Char) (s : StepV2)
    (hr : replies turns = some r) (hrne : r ≠ [])
    (hdec : decodeStepV2 r = some s) (hd : s.action = ("done".toList)) :
    runnerLoop replies acts maxSteps fuel numStep turns disp hist
      = some (⟨.success, turns + 1, disp⟩, hist) := by
  obtain ⟨fuel, rfl⟩ : ∃ f, fuel = f + 1 := ⟨fuel - 1, by omega⟩
  simp only [runnerLoop, hr, if_neg hrne, hdec, if_pos hd]

/-- C5: for the turn loop of Runner.Run (src/unnamed/part_000 lines
498-581) with step budget N at least 1: when every turn yields a
decodable, valid, non-done proposal and every dispatched action returns an
observation, the run ends after exactly N turns and exactly N dispatches
in the budget-exhausted state (the maximum-steps message printed, nil
error) — never more than N dispatches, since only N observation pairs are
consumed; and when the first reply decodes to a done action, the run ends
successfully after exactly one turn with zero dispatches. -/
theorem runnerRun_budget_and_done
    (replies acts : Nat → Option (List Char)) (N fuel : Nat)
    (task : List Char) (hN : 1 ≤ N) (hfuel : N ≤ fuel)
    (hrep : ∀ j, j < N → ∃ r s, replies j = some r ∧ r ≠ [] ∧
      decodeStepV2 r = some s ∧ s.action ≠ ("done".toList))
    (hact : ∀ j, j < N → (acts j).isSome) :
    (∃ hist2, runnerRun replies acts (N : Int) fuel task
      = some (⟨.budget, N, N⟩, hist2)) ∧
    (∀ replies2 acts2 : Nat → Option (List Char),
      (∃ r s, replies2 0 = some r ∧ r ≠ [] ∧ decodeStepV2 r = some s ∧
        s.action = ("done".toList)) →
      runnerRun replies2 acts2 (N : Int) fuel task
        = some (⟨.success, 1, 0⟩, [⟨"user", task⟩])) := by
  constructor
  · obtain ⟨hist2, hrun⟩ := runnerLoop_budget_aux replies acts (N : Int)
      N fuel 1 0 0 [⟨"user", task⟩] hN hfuel (by omega)
      (by simpa using hrep) (by simpa using hact)
    exact ⟨hist2, by simpa [runnerRun] using hrun⟩
  · intro replies2 acts2 hdone
    obtain ⟨r, s, hr, hrne, hdec, hd⟩ := hdone
    have := runnerLoop_done_step replies2 acts2 (N : Int) fuel 1 0 0
      [⟨"user", task⟩] (by omega) r s hr hrne hdec hd
    simpa [runnerRun] using this

/-- C5 witness: budget N = 1 with a constant valid shell proposal reaches
the budget state after one turn and one dispatch; a constant done reply
succeeds in one turn with zero dispatches. -/
theorem runnerRun_budget_and_done_witness :
    (∃ hist2, runnerRun
        (fun _ => some (("thought: t\naction: shell\ninput:\n\x60\x60\x60\nls\n\x60\x60\x60".toList)))
        (fun _ => some ("ok".toList)) (1 : Int) 1 ("t".toList)
      = some (⟨.budget, 1, 1⟩, hist2)) ∧
    runnerRun (fun _ => some ("action: done".toList)) (fun _ => none)
        (1 : Int) 1 ("t".toList)
      = some (⟨.success, 1, 0⟩, [⟨"user", ("t".toList)⟩]) := by
  have := runnerRun_budget_and_done
    (fun _ => some (("thought: t\naction: shell\ninput:\n\x60\x60\x60\nls\n\x60\x60\x60".toList)))
    (fun _ => some ("ok".toList)) 1 1 ("t".toList) (by decide) (by decide)
    (by
      intro j hj
      exact ⟨("thought: t\naction: shell\ninput:\n\x60\x60\x60\nls\n\x60\x60\x60".toList),
        ⟨("t".toList), ("shell".toList), ("ls".toList), []⟩,
        rfl, by decide, by decide, by decide⟩)
    (by intro j hj; simp)
  exact ⟨this.1, this.2 (fun _ => some ("action: done".toList)) (fun _ => none)
    ⟨("action: done".toList), ⟨[], ("done".toList), [], []⟩,
      rfl, by decide, by decide, by decide⟩⟩

theorem decodeLoop_nil (fuel : Nat) (b : Bool) (acc : List (List Char))
    (s : ProposalFields) : decodeLoop fuel [] b acc s = s := by
  cases fuel <;> rfl

theorem decodeLoop_step_thought (fuel : Nat) (hf : fuel ≠ 0) (l : List Char)
    (rest : List (List Char)) (b : Bool) (acc : List (List Char))
    (s : ProposalFields) (h : isPrefixL thoughtTag l = true) :
    decodeLoop fuel (l :: rest) b acc s
      = decodeLoop (fuel - 1) rest b acc
          { s with thought := trimChars nlSpace ((splitN2 ':' l).getD 1 []) } := by
  cases fuel with
  | zero => exact absurd rfl hf
  | succ f => simp only [decodeLoop, h, if_true, Nat.succ_sub_one]

theorem decodeLoop_step_action (fuel : Nat) (hf : fuel ≠ 0) (l : List Char)
    (rest : List (List Char)) (b : Bool) (acc : List (List Char))
    (s : ProposalFields) (h1 : isPrefixL thoughtTag l = false)
    (h2 : isPrefixL actionTag l = true) :
    decodeLoop fuel (l :: rest) b acc s
      = decodeLoop (fuel - 1) rest b acc
          { s with action := trimChars nlSpace ((splitN2 ':' l).getD 1 []) } := by
  cases fuel with
  | zero => exact absurd rfl hf
  | succ f => simp only [decodeLoop, h1, h2, Bool.false_eq_true, if_false,
      if_true, Nat.succ_sub_one]

theorem decodeLoop_step_input (fuel : Nat) (hf : fuel ≠ 0) (l : List Char)
    (rest : List (List Char)) (b : Bool) (acc : List (List Char))
    (s : ProposalFields) (h1 : isPrefixL thoughtTag l = false)
    (h2 : isPrefixL actionTag l = false) (h3 : isPrefixL inputTag l = true) :
    decodeLoop fuel (l :: rest) b acc s
      = decodeLoop (fuel - 1) (decodeInputBlock rest b acc).2.2
          (decodeInputBlock rest b acc).1 (decodeInputBlock rest b acc).2.1
          { s with input := joinCh '\n' (decodeInputBlock rest b acc).2.1 } := by
  cases fuel with
  | zero => exact absurd rfl hf
  | succ f => simp only [decodeLoop, h1, h2, h3, Bool.false_eq_true, if_false,
      if_true, Nat.succ_sub_one]

theorem decodeLoop_step_skip (fuel : Nat) (hf : fuel ≠ 0) (l : List Char)
    (rest : List (List Char)) (b : Bool) (acc : List (List Char))
    (s : ProposalFields) (h1 : isPrefixL thoughtTag l = false)
    (h2 : isPrefixL actionTag l = false) (h3 : isPrefixL inputTag l = false) :
    decodeLoop fuel (l :: rest) b acc s
      = decodeLoop (fuel - 1) rest b acc s := by
  cases fuel with
  | zero => exact absurd rfl hf
  | succ f => simp only [decodeLoop, h1, h2, h3, Bool.false_eq_true, if_false,
      Nat.succ_sub_one]

theorem decodeInputBlock_collect (pls : List (List Char)) :
    ∀ (rest acc : List (List Char)),
    (∀ l ∈ pls, isPrefixL fenceTag l = false) →
    decodeInputBlock (pls ++ fenceTag :: rest) true acc
      = (true, acc ++ pls, rest) := by
  induction pls with
  | nil =>
    intro rest acc _
    simp only [List.nil_append, decodeInputBlock,
      show isPrefixL fenceTag fenceTag = true from by decide, if_true,
      List.append_nil]
  | cons l pls ih =>
    intro rest acc hp
    have hl : isPrefixL fenceTag l = false := hp l (List.mem_cons_self _ _)
    simp only [List.cons_append, decodeInputBlock, hl, Bool.false_eq_true,
      if_false, if_true, List.append_eq]
    rw [ih rest (acc ++ [l]) (fun x hx => hp x (List.mem_cons_of_mem _ hx))]
    simp

theorem decodeLoop_encoded (tl al : List Char) (pls : List (List Char))
    (fuel : Nat) (hfuel : 5 ≤ fuel)
    (hth : isPrefixL thoughtTag tl = true)
    (hat : isPrefixL thoughtTag al = false)
    (haa : isPrefixL actionTag al = true)
    (hp : ∀ l ∈ pls, isPrefixL fenceTag l = false) (s : ProposalFields) :
    decodeLoop fuel (tl :: al :: inputTag :: fenceTag :: (pls ++ fenceTag :: [[]]))
        false [] s
      = ⟨trimChars nlSpace ((splitN2 ':' tl).getD 1 []),
         trimChars nlSpace ((splitN2 ':' al).getD 1 []),
         joinCh '\n' pls⟩ := by
  obtain ⟨f, rfl⟩ : ∃ f, fuel = f + 5 := ⟨fuel - 5, by omega⟩
  have hblock : decodeInputBlock (fenceTag :: (pls ++ fenceTag :: [[]])) false []
      = (true, pls, [[]]) := by
    simp only [decodeInputBlock,
      show isPrefixL fenceTag fenceTag = true from by decide, if_true,
      Bool.false_eq_true, if_false]
    rw [decodeInputBlock_collect pls [[]] [] hp]
    simp
  rw [decodeLoop_step_thought (f + 5) (by omega) _ _ _ _ _ hth]
  rw [decodeLoop_step_action (f + 5 - 1) (by omega) _ _ _ _ _ hat haa]
  rw [decodeLoop_step_input (f + 5 - 1 - 1) (by omega) _ _ _ _ _
    (by decide) (by decide) (by decide)]
  rw [hblock]
  rw [decodeLoop_step_skip (f + 5 - 1 - 1 - 1) (by omega) _ _ _ _ _
    (by decide) (by decide) (by decide)]
  rw [decodeLoop_nil]

/-- C2 counterexample: the Step with thought `(space)x`, action shell,
input ls is a valid proposal in the claim's sense (nonempty single-line
thought, recognized action, fence-free nonempty input), yet decoding its
encoding trims the thought to `x`, so the round trip does not reproduce
the Step. -/
theorem roundTrip_thought_space_cx :
    decodeStepGo (encodeStepGo ⟨(" x".toList), ("shell".toList), ("ls".toList), []⟩)
      ≠ ⟨(" x".toList), ("shell".toList), ("ls".toList), []⟩ := by decide

/-- C2 amended: for a proposal Step whose thought is nonempty,
newline-free and carries no leading or trailing space or newline (decode
trims the text after the colon with the cutset newline-space, so such
characters cannot survive a round trip), whose action is in the recognized
set, and whose input has no payload line beginning with the fence, decode
after encode reproduces the thought and action exactly and the input
byte-identically modulo the trim of outer newline characters (outer blank
lines) that encode itself applies. -/
theorem roundTrip_amended (th ac inp fb : List Char)
    (hthNe : th ≠ [])
    (hthNl : '\n' ∉ th)
    (hthTrim : trimChars nlSpace th = th)
    (hac : ac ∈ [("file".toList), ("shell".toList), ("python".toList),
      ("search".toList), ("cd".toList), ("done".toList)])
    (hinp : ∀ l ∈ splitOnCh '\n' (trimChars ['\n'] inp),
      isPrefixL fenceTag l = false) :
    decodeStepGo (encodeStepGo ⟨th, ac, inp, fb⟩)
      = ⟨th, ac, trimChars ['\n'] inp, []⟩ := by
  have hacP : '\n' ∉ ac ∧ trimChars nlSpace ac = ac := by
    simp only [List.mem_cons, List.not_mem_nil, or_false] at hac
    rcases hac with rfl | rfl | rfl | rfl | rfl | rfl <;> exact ⟨by decide, by decide⟩
  have henc : encodeStepGo ⟨th, ac, inp, fb⟩
      = (thoughtTag ++ ' ' :: th) ++ '\n' ::
        ((actionTag ++ ' ' :: ac) ++ '\n' ::
          (inputTag ++ '\n' :: (fenceTag ++ '\n' ::
            (trimChars ['\n'] inp ++ '\n' :: (fenceTag ++ ['\n']))))) := by
    show (if th ≠ [] then _ else _) = _
    rw [if_pos hthNe]
    simp only [joinCh]
    simp
  have hnl_t : '\n' ∉ thoughtTag ++ ' ' :: th := by
    intro hm
    rcases List.mem_append.mp hm with h | h
    · exact absurd h (by decide)
    · rcases List.mem_cons.mp h with h2 | h2
      · exact absurd h2 (by decide)
      · exact hthNl h2
  have hnl_a : '\n' ∉ actionTag ++ ' ' :: ac := by
    intro hm
    rcases List.mem_append.mp hm with h | h
    · exact absurd h (by decide)
    · rcases List.mem_cons.mp h with h2 | h2
      · exact absurd h2 (by decide)
      · exact hacP.1 h2
  have hlines : splitOnCh '\n' (encodeStepGo ⟨th, ac, inp, fb⟩)
      = (thoughtTag ++ ' ' :: th) :: (actionTag ++ ' ' :: ac) :: inputTag ::
        fenceTag :: (splitOnCh '\n' (trimChars ['\n'] inp) ++ fenceTag :: [[]]) := by
    rw [henc, splitOnCh_append_sep, splitOnCh_of_not_mem hnl_t,
      splitOnCh_append_sep, splitOnCh_of_not_mem hnl_a,
      splitOnCh_append_sep, splitOnCh_of_not_mem (show '\n' ∉ inputTag by decide),
      splitOnCh_append_sep, splitOnCh_of_not_mem (show '\n' ∉ fenceTag by decide),
      splitOnCh_append_sep,
      splitOnCh_append_sep, splitOnCh_of_not_mem (show '\n' ∉ fenceTag by decide)]
    simp [splitOnCh]
  have hT : trimChars nlSpace ((splitN2 ':' (thoughtTag ++ ' ' :: th)).getD 1 [])
      = th := by
    rw [show thoughtTag ++ ' ' :: th = ("thought".toList) ++ ':' :: ' ' :: th from rfl,
      splitN2_first _ (by decide)]
    show trimChars nlSpace (' ' :: th) = th
    rw [trimChars_cons_of_mem th (by decide)]
    exact hthTrim
  have hA : trimChars nlSpace ((splitN2 ':' (actionTag ++ ' ' :: ac)).getD 1 [])
      = ac := by
    rw [show actionTag ++ ' ' :: ac = ("action".toList) ++ ':' :: ' ' :: ac from rfl,
      splitN2_first _ (by decide)]
    show trimChars nlSpace (' ' :: ac) = ac
    rw [trimChars_cons_of_mem ac (by decide)]
    exact hacP.2
  have hdt : decodeTriple (encodeStepGo ⟨th, ac, inp, fb⟩)
      = ⟨th, ac, trimChars ['\n'] inp⟩ := by
    unfold decodeTriple
    simp only [hlines]
    rw [decodeLoop_encoded (thoughtTag ++ ' ' :: th) (actionTag ++ ' ' :: ac)
      (splitOnCh '\n' (trimChars ['\n'] inp)) _
      (by simp only [List.length_cons, List.length_append]; omega)
      (isPrefixL_self_append _ _) rfl (isPrefixL_self_append _ _) hinp]
    rw [hT, hA, joinCh_splitOnCh]
  unfold decodeStepGo
  rw [hdt]

/-- C2 amended witness: the theorem at thought t, action shell, input with
a trailing blank line; the decoded input is the payload with the outer
blank line trimmed. -/
theorem roundTrip_amended_witness :
    decodeStepGo (encodeStepGo ⟨("t".toList), ("shell".toList), ("ls\n".toList), []⟩)
      = ⟨("t".toList), ("shell".toList), ("ls".toList), []⟩ := by
  have := roundTrip_amended ("t".toList) ("shell".toList) ("ls\n".toList) []
    (by decide) (by decide) (by decide) (by decide) (by decide)
  simpa using this

end Gptask
